import Mathlib

set_option maxRecDepth 2000000
set_option maxHeartbeats 2000000

/-!
Verification of the ptsim paged-virtual-memory simulator.

The definitions below are a shallow embedding of the C source (ptsim):
simulated RAM is a list of byte cells, and each C function becomes a Lean
function threading the memory state explicitly.  Machine bytes are modelled
as `Nat` with explicit truncation (`% 256`) where the C code converts to
`unsigned char`.
-/

namespace PTSim

/-- Simulated RAM: one `Nat` per byte cell (all values written are below 256). -/
abbrev Mem := List Nat

/-- MEM_SIZE from the source: total bytes of simulated RAM. -/
def MEM_SIZE : Nat := 16384

/-- PAGE_SIZE from the source: bytes per page. -/
def PAGE_SIZE : Nat := 256

/-- PAGE_COUNT from the source: number of physical pages. -/
def PAGE_COUNT : Nat := 64

/-- PAGE_SHIFT from the source: bits to shift a page number. -/
def PAGE_SHIFT : Nat := 8

/-- PTP_OFFSET from the source: offset in page 0 of the page table pointer table. -/
def PTP_OFFSET : Nat := 64

/-- Embeds C `get_address`: `(page << PAGE_SHIFT) | offset`. -/
def get_address (page offset : Nat) : Nat := (page <<< PAGE_SHIFT) ||| offset

/-- Embeds C `initialize_mem`: zero the whole store, then mark page 0 used. -/
def init_mem : Mem := (List.replicate MEM_SIZE 0).set (get_address 0 0) 1

/-- Embeds C `get_page_table`: read `mem[get_address(0, PTP_OFFSET + proc_num)]`. -/
def get_page_table (m : Mem) (proc_num : Nat) : Nat :=
  m.getD (get_address 0 (PTP_OFFSET + proc_num)) 0

/-- Embeds the first-fit scan loop of `new_process`
(`for i; if (mem[addr] == 0) break`): starting at index `i` with the given
remaining iteration count, return the first index whose free-map byte is 0. -/
def alloc_from (m : Mem) : Nat → Nat → Option Nat
  | _, 0 => none
  | i, fuel + 1 =>
    if m.getD (get_address 0 i) 0 = 0 then some i else alloc_from m (i + 1) fuel

/-- One page allocation as performed by `new_process`: find the first free index
in `[0, PAGE_COUNT)` and mark exactly that free-map byte used (value 1). -/
def allocate_page (m : Mem) : Option (Nat × Mem) :=
  (alloc_from m 0 PAGE_COUNT).map fun i => (i, m.set (get_address 0 i) 1)

/-- Embeds the data-page allocation loop (`for j`) of `new_process`.
Returns `(some pages, m')` on success; on failure returns `(none, m')` where
`m'` keeps every page allocated before the failure marked used (no rollback),
exactly as the C code leaves the free map when it prints OOM and returns. -/
def alloc_pages (m : Mem) : Nat → Option (List Nat) × Mem
  | 0 => (some [], m)
  | k + 1 =>
    match allocate_page m with
    | none => (none, m)
    | some (p, m1) =>
      let r := alloc_pages m1 k
      (r.1.map fun ps => p :: ps, r.2)

/-- Embeds the page-table entry writing loop of `new_process`:
`mem[pt_addr + i] = data_pages[i]` for `i` in order. -/
def write_entries (pt_addr : Nat) : List Nat → Nat → Mem → Mem
  | [], _, m => m
  | d :: ds, i, m => write_entries pt_addr ds (i + 1) (m.set (pt_addr + i) d)

/-- Outcome reported by `new_process` (its printf messages): success, or which
allocation ran out of memory. -/
inductive NPResult
  | ok
  | oomPageTable
  | oomDataPage
deriving DecidableEq

/-- Embeds C `new_process`: allocate one page-table page, then `page_count`
data pages; only on full success write the directory entry and the page-table
entries. -/
def new_process (m : Mem) (proc_num page_count : Nat) : NPResult × Mem :=
  match allocate_page m with
  | none => (.oomPageTable, m)
  | some (pt_page, m1) =>
    match alloc_pages m1 page_count with
    | (none, m2) => (.oomDataPage, m2)
    | (some data_pages, m2) =>
      let m3 := m2.set (get_address 0 (PTP_OFFSET + proc_num)) pt_page
      (.ok, write_entries (get_address pt_page 0) data_pages 0 m3)

/-- Body of the freeing loop of `kill_process`: read `mem[pt_addr + i]` and, if
nonzero, mark that page free. -/
def kill_step (pt_addr : Nat) (mm : Mem) (i : Nat) : Mem :=
  let data_page := mm.getD (pt_addr + i) 0
  if data_page ≠ 0 then mm.set (get_address 0 data_page) 0 else mm

/-- Embeds C `kill_process`: read the page-table page from the directory
(without any absent-process check, as in the source), free every page named by
a nonzero entry of that page, free the page-table page, zero the directory
entry.  The fold mutates the memory sequentially, as the C loop does. -/
def kill_process (m : Mem) (proc_num : Nat) : Mem :=
  let pt_page := get_page_table m proc_num
  let pt_addr := get_address pt_page 0
  let m1 := (List.range PAGE_COUNT).foldl (kill_step pt_addr) m
  let m2 := m1.set (get_address 0 pt_page) 0
  m2.set (get_address 0 (PTP_OFFSET + proc_num)) 0

/-- Embeds C `store_byte`: translate and write.  Returns
`(some physical_address, new mem)` on success and `(none, unchanged mem)` on a
translation fault.  `val` is truncated to a byte as by the C `unsigned char`
parameter. -/
def store_byte (m : Mem) (proc_num vaddr val : Nat) : Option Nat × Mem :=
  let pt_page := get_page_table m proc_num
  let virtual_page := vaddr >>> PAGE_SHIFT
  let offset := vaddr &&& 255
  let pt_addr := get_address pt_page virtual_page
  let phys_page := m.getD pt_addr 0
  if phys_page = 0 then (none, m)
  else
    let phys_addr := get_address phys_page offset
    (some phys_addr, m.set phys_addr (val % 256))

/-- Embeds C `load_byte`: translate and read.  Returns
`some (physical_address, value)` on success and `none` on a translation fault;
`load_byte` never mutates the store. -/
def load_byte (m : Mem) (proc_num vaddr : Nat) : Option (Nat × Nat) :=
  let pt_page := get_page_table m proc_num
  let virtual_page := vaddr >>> PAGE_SHIFT
  let offset := vaddr &&& 255
  let pt_addr := get_address pt_page virtual_page
  let phys_page := m.getD pt_addr 0
  if phys_page = 0 then none
  else
    let phys_addr := get_address phys_page offset
    some (phys_addr, m.getD phys_addr 0)

/-- Free/used-map snapshot per spec section 6 (the booleans printed by
`print_page_free_map`): `true` means used (free-map byte nonzero). -/
def free_map_snapshot (m : Mem) : List Bool :=
  (List.range PAGE_COUNT).map fun i => m.getD (get_address 0 i) 0 != 0

/-- Number of free pages recorded in the free map. -/
def freeCount (m : Mem) : Nat :=
  (List.range PAGE_COUNT).countP fun i => m.getD (get_address 0 i) 0 == 0

/-- States reachable from a fresh `init_mem` using only `new_process`
operations, with process numbers below `PAGE_COUNT`. -/
inductive ReachableNP : Mem → Prop
  | init : ReachableNP init_mem
  | step (m : Mem) (proc_num page_count : Nat) (hp : proc_num < PAGE_COUNT) :
      ReachableNP m → ReachableNP (new_process m proc_num page_count).2

/-! Basic lemmas about addresses and raw memory cells. -/

theorem ga_zero (o : Nat) : get_address 0 o = o := by
  simp [get_address]

theorem ga_eq (p o : Nat) (h : o < PAGE_SIZE) : get_address p o = PAGE_SIZE * p + o := by
  have h' : o < 2 ^ 8 := h
  calc get_address p o = 2 ^ 8 * p ||| o := by
        rw [get_address, Nat.shiftLeft_eq, Nat.mul_comm]; rfl
    _ = 2 ^ 8 * p + o := (Nat.mul_add_lt_is_or h' p).symm
    _ = PAGE_SIZE * p + o := rfl

theorem getD_set_ne (m : Mem) (i j v : Nat) (h : i ≠ j) :
    (m.set i v).getD j 0 = m.getD j 0 := by
  simp [List.getD_eq_getElem?_getD, List.getElem?_set_ne h]

theorem getD_set_self (m : Mem) (i v : Nat) (h : i < m.length) :
    (m.set i v).getD i 0 = v := by
  simp [List.getD_eq_getElem?_getD, List.getElem?_set_self, h]

theorem getD_of_ge (m : Mem) (i : Nat) (h : m.length ≤ i) : m.getD i 0 = 0 := by
  simp [List.getD_eq_getElem?_getD, List.getElem?_eq_none h]

theorem getD_replicate_zero (n i : Nat) : (List.replicate n (0 : Nat)).getD i 0 = 0 := by
  rcases Nat.lt_or_ge i n with h | h
  · rw [List.getD_eq_getElem?_getD, List.getElem?_replicate, if_pos h]; rfl
  · rw [List.getD_eq_getElem?_getD, List.getElem?_eq_none (by simpa using h)]; rfl

theorem init_mem_getD (a : Nat) : init_mem.getD a 0 = if a = 0 then 1 else 0 := by
  rw [init_mem, ga_zero]
  by_cases h : a = 0
  · subst h
    rw [if_pos rfl]
    exact getD_set_self _ 0 1 (by rw [List.length_replicate]; decide)
  · rw [if_neg h, getD_set_ne _ _ _ _ (fun he => h he.symm)]
    exact getD_replicate_zero _ _

theorem init_mem_length : init_mem.length = MEM_SIZE := by
  simp [init_mem]

/-! Lemmas about the first-fit scan and single-page allocation. -/

theorem alloc_from_some (m : Mem) :
    ∀ fuel i j, alloc_from m i fuel = some j →
      i ≤ j ∧ j < i + fuel ∧ m.getD (get_address 0 j) 0 = 0 ∧
        ∀ x, i ≤ x → x < j → m.getD (get_address 0 x) 0 ≠ 0 := by
  intro fuel
  induction fuel with
  | zero => intro i j h; simp [alloc_from] at h
  | succ f ih =>
    intro i j h
    rw [alloc_from] at h
    by_cases hc : m.getD (get_address 0 i) 0 = 0
    · rw [if_pos hc] at h
      cases h
      exact ⟨Nat.le_refl _, by omega, hc, fun x hx hx' => by omega⟩
    · rw [if_neg hc] at h
      obtain ⟨h1, h2, h3, h4⟩ := ih (i + 1) j h
      refine ⟨by omega, by omega, h3, fun x hx hx' => ?_⟩
      by_cases hxi : x = i
      · subst hxi; exact hc
      · exact h4 x (by omega) hx'

theorem alloc_from_none (m : Mem) :
    ∀ fuel i, alloc_from m i fuel = none →
      ∀ x, i ≤ x → x < i + fuel → m.getD (get_address 0 x) 0 ≠ 0 := by
  intro fuel
  induction fuel with
  | zero => intro i _ x hx hx'; omega
  | succ f ih =>
    intro i h x hx hx'
    rw [alloc_from] at h
    by_cases hc : m.getD (get_address 0 i) 0 = 0
    · rw [if_pos hc] at h; cases h
    · rw [if_neg hc] at h
      by_cases hxi : x = i
      · subst hxi; exact hc
      · exact ih (i + 1) h x (by omega) (by omega)

theorem allocate_page_some (m : Mem) (j : Nat) (m' : Mem)
    (h : allocate_page m = some (j, m')) :
    j < PAGE_COUNT ∧ m.getD (get_address 0 j) 0 = 0 ∧
      (∀ x, x < j → m.getD (get_address 0 x) 0 ≠ 0) ∧
      m' = m.set (get_address 0 j) 1 := by
  rw [allocate_page] at h
  cases hf : alloc_from m 0 PAGE_COUNT with
  | none => rw [hf] at h; simp at h
  | some i =>
    rw [hf] at h
    rw [Option.map_some'] at h
    injection h with h'
    injection h' with h1 h2
    subst h1
    subst h2
    obtain ⟨_, hb, hfree, hmin⟩ := alloc_from_some m PAGE_COUNT 0 i hf
    exact ⟨by omega, hfree, fun x hx => hmin x (Nat.zero_le x) hx, rfl⟩

theorem allocate_page_none (m : Mem) (h : allocate_page m = none) :
    ∀ x, x < PAGE_COUNT → m.getD (get_address 0 x) 0 ≠ 0 := by
  rw [allocate_page] at h
  cases hf : alloc_from m 0 PAGE_COUNT with
  | none => exact fun x hx => alloc_from_none m PAGE_COUNT 0 hf x (Nat.zero_le x) (by omega)
  | some i => rw [hf] at h; exact absurd h (by simp)

/-! Lemmas about the number of free pages. -/

theorem countP_drop_one (p q : Nat → Bool) :
    ∀ L : List Nat, L.Nodup → ∀ j ∈ L, p j = true → q j = false →
      (∀ x ∈ L, x ≠ j → p x = q x) → L.countP p = L.countP q + 1 := by
  intro L
  induction L with
  | nil => intro _ j hj; cases hj
  | cons b T ih =>
    intro hnd j hj hpj hqj hagree
    rcases List.mem_cons.mp hj with hb | hT
    · subst hb
      rw [List.countP_cons_of_pos _ _ hpj, List.countP_cons_of_neg _ _ (by simp [hqj])]
      have hnotin : j ∉ T := (List.nodup_cons.mp hnd).1
      have : T.countP p = T.countP q := by
        apply List.countP_congr
        intro x hx
        rw [hagree x (List.mem_cons_of_mem _ hx) (fun he => hnotin (he ▸ hx))]
      omega
    · have hnd' := (List.nodup_cons.mp hnd).2
      have hbj : b ≠ j := fun he => (List.nodup_cons.mp hnd).1 (he ▸ hT)
      have hrec := ih hnd' j hT hpj hqj
        (fun x hx hxj => hagree x (List.mem_cons_of_mem _ hx) hxj)
      have hqb : q b = p b := (hagree b (List.mem_cons_self b T) hbj).symm
      by_cases hpb : p b = true
      · rw [List.countP_cons_of_pos _ _ hpb,
          List.countP_cons_of_pos _ _ (hqb.trans hpb), hrec]
      · rw [List.countP_cons_of_neg _ _ hpb,
          List.countP_cons_of_neg _ _ (fun hq => hpb (hqb ▸ hq)), hrec]

theorem freeCount_eq_countP (m : Mem) :
    freeCount m = (List.range PAGE_COUNT).countP (fun i => m.getD i 0 == 0) := by
  apply List.countP_congr
  intro x _
  rw [ga_zero]

theorem freeCount_eq_succ_of_alloc (m : Mem) (j : Nat) (m' : Mem)
    (h : allocate_page m = some (j, m')) (hlen : PAGE_COUNT ≤ m.length) :
    freeCount m = freeCount m' + 1 := by
  obtain ⟨hj, hfree, _, hm'⟩ := allocate_page_some m j m' h
  rw [ga_zero] at hfree hm'
  subst hm'
  rw [freeCount_eq_countP, freeCount_eq_countP]
  apply countP_drop_one
  · exact List.nodup_range _
  · exact List.mem_range.mpr hj
  · show (m.getD j 0 == 0) = true
    rw [hfree]
    rfl
  · show ((m.set j 1).getD j 0 == 0) = false
    rw [getD_set_self m j 1 (by omega)]
    rfl
  · intro x _ hxj
    show (m.getD x 0 == 0) = ((m.set j 1).getD x 0 == 0)
    rw [getD_set_ne m j x 1 (fun he => hxj he.symm)]

theorem freeCount_lt_of_used0 (m : Mem) (h0 : m.getD (get_address 0 0) 0 ≠ 0) :
    freeCount m ≤ PAGE_COUNT - 1 := by
  rw [ga_zero] at h0
  rw [freeCount_eq_countP]
  have : List.range PAGE_COUNT = 0 :: (List.range (PAGE_COUNT - 1)).map (· + 1) := by
    rw [show PAGE_COUNT = (PAGE_COUNT - 1) + 1 from rfl]
    exact List.range_succ_eq_map _
  rw [this, List.countP_cons_of_neg _ _ (by simp only [beq_iff_eq]; exact h0)]
  calc ((List.range (PAGE_COUNT - 1)).map (· + 1)).countP _ ≤
      ((List.range (PAGE_COUNT - 1)).map (· + 1)).length := List.countP_le_length _
    _ = PAGE_COUNT - 1 := by rw [List.length_map, List.length_range]

theorem alloc_pages_le :
    ∀ (k : Nat) (m : Mem) (ds : List Nat) (m' : Mem),
      alloc_pages m k = (some ds, m') → PAGE_COUNT ≤ m.length → k ≤ freeCount m := by
  intro k
  induction k with
  | zero => intro m ds m' _ _; exact Nat.zero_le _
  | succ n ih =>
    intro m ds m' h hlen
    rw [alloc_pages] at h
    cases hap : allocate_page m with
    | none => rw [hap] at h; cases h
    | some pm =>
      obtain ⟨p, m1⟩ := pm
      rw [hap] at h
      simp only at h
      have h2 : (alloc_pages m1 n).2 = m' := congrArg Prod.snd h
      have h1 : ((alloc_pages m1 n).1.map fun ps => p :: ps) = some ds := congrArg Prod.fst h
      cases hr : (alloc_pages m1 n).1 with
      | none => rw [hr] at h1; cases h1
      | some ds' =>
        obtain ⟨_, _, _, hm1⟩ := allocate_page_some m p m1 hap
        rw [ga_zero] at hm1
        have hlen1 : PAGE_COUNT ≤ m1.length := by rw [hm1, List.length_set]; exact hlen
        have hrec := ih m1 ds' (alloc_pages m1 n).2 (by rw [← hr]) hlen1
        have hfc := freeCount_eq_succ_of_alloc m p m1 hap hlen
        omega

theorem alloc_pages_spec :
    ∀ (k : Nat) (m : Mem), PAGE_COUNT ≤ m.length →
      ∃ S : List Nat, S.Nodup ∧
        (∀ d ∈ S, d < PAGE_COUNT ∧ m.getD d 0 = 0) ∧
        (∀ a ∈ S, (alloc_pages m k).2.getD a 0 = 1) ∧
        (∀ a, a ∉ S → (alloc_pages m k).2.getD a 0 = m.getD a 0) ∧
        (alloc_pages m k).2.length = m.length ∧
        (∀ ds, (alloc_pages m k).1 = some ds → ds = S ∧ S.length = k) := by
  intro k
  induction k with
  | zero =>
    intro m _
    refine ⟨[], List.nodup_nil, by simp, by simp, fun a _ => rfl, rfl, ?_⟩
    intro ds hds
    rw [alloc_pages] at hds
    cases hds
    exact ⟨rfl, rfl⟩
  | succ n ih =>
    intro m hlen
    rw [alloc_pages]
    cases hap : allocate_page m with
    | none =>
      refine ⟨[], List.nodup_nil, by simp, by simp, fun a _ => rfl, rfl, by simp⟩
    | some pm =>
      obtain ⟨p, m1⟩ := pm
      obtain ⟨hp, hpfree, _, hm1⟩ := allocate_page_some m p m1 hap
      rw [ga_zero] at hpfree hm1
      have hlen1 : PAGE_COUNT ≤ m1.length := by rw [hm1, List.length_set]; exact hlen
      obtain ⟨S, hnd, hfree, hone, hkeep, hl, hret⟩ := ih m1 hlen1
      have hpS : p ∉ S := by
        intro hmem
        have := (hfree p hmem).2
        rw [hm1, getD_set_self m p 1 (by omega)] at this
        cases this
      refine ⟨p :: S, List.nodup_cons.mpr ⟨hpS, hnd⟩, ?_, ?_, ?_, hl.trans (by rw [hm1, List.length_set]), ?_⟩
      · intro d hd
        rcases List.mem_cons.mp hd with rfl | hdS
        · exact ⟨hp, hpfree⟩
        · obtain ⟨h1, h2⟩ := hfree d hdS
          refine ⟨h1, ?_⟩
          rw [hm1, getD_set_ne m p d 1 (fun he => hpS (he ▸ hdS))] at h2
          exact h2
      · intro a ha
        rcases List.mem_cons.mp ha with rfl | haS
        · rw [hkeep a hpS, hm1, getD_set_self m a 1 (by omega)]
        · exact hone a haS
      · intro a ha
        have ha1 : a ≠ p := fun he => ha (he ▸ List.mem_cons_self p S)
        have ha2 : a ∉ S := fun hm => ha (List.mem_cons_of_mem _ hm)
        rw [hkeep a ha2, hm1, getD_set_ne m p a 1 (fun he => ha1 he.symm)]
      · intro ds hds
        simp only at hds
        cases hr : (alloc_pages m1 n).1 with
        | none => rw [hr] at hds; cases hds
        | some ds' =>
          rw [hr] at hds
          rw [Option.map_some'] at hds
          injection hds with hds
          obtain ⟨he, hle⟩ := hret ds' hr
          subst he
          rw [← hds]
          exact ⟨rfl, by simp [hle]⟩

/-- When the data-page allocation loop fails, it fails because the free map is
exhausted: in the state it leaves behind, every free-map byte is nonzero.  In
particular none of the pages allocated before the failure point has been given
back. -/
theorem alloc_pages_none_full :
    ∀ (k : Nat) (m m' : Mem), alloc_pages m k = (none, m') →
      ∀ x, x < PAGE_COUNT → m'.getD (get_address 0 x) 0 ≠ 0 := by
  intro k
  induction k with
  | zero =>
    intro m m' h x hx
    rw [alloc_pages] at h
    exact absurd (congrArg Prod.fst h) (by simp)
  | succ n ih =>
    intro m m' h x hx
    rw [alloc_pages] at h
    cases hap : allocate_page m with
    | none =>
      rw [hap] at h
      simp only at h
      have h2 : m = m' := congrArg Prod.snd h
      rw [← h2]
      exact allocate_page_none m hap x hx
    | some pm =>
      obtain ⟨p, m1⟩ := pm
      rw [hap] at h
      simp only at h
      have h1 : ((alloc_pages m1 n).1.map fun ps => p :: ps) = none := congrArg Prod.fst h
      have h2 : (alloc_pages m1 n).2 = m' := congrArg Prod.snd h
      cases hr1 : (alloc_pages m1 n).1 with
      | some ds =>
        rw [hr1] at h1
        simp at h1
      | none =>
        have hres := ih m1 (alloc_pages m1 n).2 (by rw [← hr1]) x hx
        rw [h2] at hres
        exact hres

/-! Lemmas about the page-table entry writing loop. -/

theorem write_entries_length (pa : Nat) :
    ∀ (ds : List Nat) (i : Nat) (m : Mem),
      (write_entries pa ds i m).length = m.length := by
  intro ds
  induction ds with
  | nil => intro i m; rfl
  | cons d ds' ih =>
    intro i m
    rw [write_entries, ih (i + 1) (m.set (pa + i) d), List.length_set]

theorem write_entries_getD_out (pa : Nat) :
    ∀ (ds : List Nat) (i : Nat) (m : Mem) (a : Nat),
      (a < pa + i ∨ pa + i + ds.length ≤ a) →
      (write_entries pa ds i m).getD a 0 = m.getD a 0 := by
  intro ds
  induction ds with
  | nil => intro i m a _; rfl
  | cons d ds' ih =>
    intro i m a ha
    rw [write_entries]
    have hne : pa + i ≠ a := by
      rcases ha with h | h
      · omega
      · simp only [List.length_cons] at h; omega
    have ha' : a < pa + (i + 1) ∨ pa + (i + 1) + ds'.length ≤ a := by
      rcases ha with h | h
      · left; omega
      · simp only [List.length_cons] at h; right; omega
    rw [ih (i + 1) (m.set (pa + i) d) a ha', getD_set_ne _ _ _ _ hne]

/-! Lemmas about the freeing loop of `kill_process`.  Throughout, `pa` is the
base address of the page-table page being scanned; when it lies at or above
`PAGE_SIZE` (page-table page index at least 1), the loop's reads (at `pa + i`)
and its writes (free-map bytes, below `PAGE_SIZE`) cannot interfere. -/

theorem kill_step_length (pa : Nat) (mm : Mem) (i : Nat) :
    (kill_step pa mm i).length = mm.length := by
  simp only [kill_step]
  split
  · exact List.length_set ..
  · rfl

theorem kill_step_high (pa i : Nat) (mm : Mem) (hdp : mm.getD (pa + i) 0 < PAGE_SIZE) :
    ∀ b, PAGE_SIZE ≤ b → (kill_step pa mm i).getD b 0 = mm.getD b 0 := by
  intro b hb
  simp only [kill_step]
  split
  · rw [ga_zero]
    exact getD_set_ne _ _ _ _ (by omega)
  · rfl

theorem kill_step_keep (pa i a : Nat) (mm : Mem)
    (h : mm.getD (pa + i) 0 = 0 ∨ mm.getD (pa + i) 0 ≠ a) :
    (kill_step pa mm i).getD a 0 = mm.getD a 0 := by
  simp only [kill_step]
  split
  · rename_i hdp
    rcases h with h0 | hne
    · exact absurd h0 hdp
    · rw [ga_zero]
      exact getD_set_ne _ _ _ _ hne
  · rfl

theorem kill_step_zero (pa i a : Nat) (mm : Mem) (h : mm.getD a 0 = 0) :
    (kill_step pa mm i).getD a 0 = 0 := by
  simp only [kill_step]
  split
  · rw [ga_zero]
    by_cases he : mm.getD (pa + i) 0 = a
    · rw [he]
      rcases Nat.lt_or_ge a mm.length with hl | hl
      · rw [getD_set_self _ _ _ hl]
      · exact getD_of_ge _ _ (by rw [List.length_set]; exact hl)
    · rw [getD_set_ne _ _ _ _ he]
      exact h
  · exact h

theorem kill_fold_length (pa : Nat) :
    ∀ (L : List Nat) (mm : Mem), (L.foldl (kill_step pa) mm).length = mm.length := by
  intro L
  induction L with
  | nil => intro mm; rfl
  | cons i L' ih =>
    intro mm
    rw [List.foldl_cons, ih (kill_step pa mm i), kill_step_length]

theorem kill_fold_high (pa : Nat) (hpa : PAGE_SIZE ≤ pa) :
    ∀ (L : List Nat) (mm : Mem), (∀ i ∈ L, mm.getD (pa + i) 0 < PAGE_SIZE) →
      ∀ a, PAGE_SIZE ≤ a → (L.foldl (kill_step pa) mm).getD a 0 = mm.getD a 0 := by
  intro L
  induction L with
  | nil => intro mm _ a _; rfl
  | cons i L' ih =>
    intro mm hv a ha
    rw [List.foldl_cons]
    have hstep := kill_step_high pa i mm (hv i (List.mem_cons_self i L'))
    have hv' : ∀ x ∈ L', (kill_step pa mm i).getD (pa + x) 0 < PAGE_SIZE := by
      intro x hx
      rw [hstep (pa + x) (by omega)]
      exact hv x (List.mem_cons_of_mem _ hx)
    rw [ih (kill_step pa mm i) hv' a ha, hstep a ha]

theorem kill_fold_keep (pa : Nat) (hpa : PAGE_SIZE ≤ pa) :
    ∀ (L : List Nat) (mm : Mem), (∀ i ∈ L, mm.getD (pa + i) 0 < PAGE_SIZE) →
      ∀ a, (∀ i ∈ L, mm.getD (pa + i) 0 = 0 ∨ mm.getD (pa + i) 0 ≠ a) →
        (L.foldl (kill_step pa) mm).getD a 0 = mm.getD a 0 := by
  intro L
  induction L with
  | nil => intro mm _ a _; rfl
  | cons i L' ih =>
    intro mm hv a ha
    rw [List.foldl_cons]
    have hstep := kill_step_high pa i mm (hv i (List.mem_cons_self i L'))
    have hv' : ∀ x ∈ L', (kill_step pa mm i).getD (pa + x) 0 < PAGE_SIZE := by
      intro x hx
      rw [hstep (pa + x) (by omega)]
      exact hv x (List.mem_cons_of_mem _ hx)
    have ha' : ∀ x ∈ L', (kill_step pa mm i).getD (pa + x) 0 = 0 ∨
        (kill_step pa mm i).getD (pa + x) 0 ≠ a := by
      intro x hx
      rw [hstep (pa + x) (by omega)]
      exact ha x (List.mem_cons_of_mem _ hx)
    rw [ih (kill_step pa mm i) hv' a ha',
      kill_step_keep pa i a mm (ha i (List.mem_cons_self i L'))]

theorem kill_fold_zero_stays (pa : Nat) :
    ∀ (L : List Nat) (mm : Mem) (a : Nat), mm.getD a 0 = 0 →
      (L.foldl (kill_step pa) mm).getD a 0 = 0 := by
  intro L
  induction L with
  | nil => intro mm a h; exact h
  | cons i L' ih =>
    intro mm a h
    rw [List.foldl_cons]
    exact ih (kill_step pa mm i) a (kill_step_zero pa i a mm h)

theorem kill_fold_zero (pa : Nat) (hpa : PAGE_SIZE ≤ pa) :
    ∀ (L : List Nat) (mm : Mem), (∀ i ∈ L, mm.getD (pa + i) 0 < PAGE_SIZE) →
      ∀ j ∈ L, mm.getD (pa + j) 0 ≠ 0 → mm.getD (pa + j) 0 < mm.length →
        (L.foldl (kill_step pa) mm).getD (mm.getD (pa + j) 0) 0 = 0 := by
  intro L
  induction L with
  | nil => intro mm _ j hj; cases hj
  | cons i L' ih =>
    intro mm hv j hj hne hlt
    rw [List.foldl_cons]
    rcases List.mem_cons.mp hj with rfl | hj'
    · have hmm1 : (kill_step pa mm j).getD (mm.getD (pa + j) 0) 0 = 0 := by
        simp only [kill_step]
        rw [if_pos hne, ga_zero]
        exact getD_set_self _ _ _ hlt
      exact kill_fold_zero_stays pa L' _ _ hmm1
    · have hstep := kill_step_high pa i mm (hv i (List.mem_cons_self i L'))
      have hv' : ∀ x ∈ L', (kill_step pa mm i).getD (pa + x) 0 < PAGE_SIZE := by
        intro x hx
        rw [hstep (pa + x) (by omega)]
        exact hv x (List.mem_cons_of_mem _ hx)
      have heq : (kill_step pa mm i).getD (pa + j) 0 = mm.getD (pa + j) 0 :=
        hstep (pa + j) (by omega)
      have := ih (kill_step pa mm i) hv' j hj' (by rw [heq]; exact hne)
        (by rw [heq, kill_step_length]; exact hlt)
      rw [heq] at this
      exact this

theorem write_entries_getD_at (pa : Nat) :
    ∀ (ds : List Nat) (j i : Nat) (m : Mem), j < ds.length → pa + i + j < m.length →
      (write_entries pa ds i m).getD (pa + i + j) 0 = ds.getD j 0 := by
  intro ds
  induction ds with
  | nil => intro j i m hj; cases hj
  | cons d ds' ih =>
    intro j i m hj hlen
    rw [write_entries]
    cases j with
    | zero =>
      rw [write_entries_getD_out pa ds' (i + 1) _ (pa + i + 0) (by left; omega)]
      rw [Nat.add_zero]
      rw [getD_set_self m (pa + i) d (by omega)]
      rfl
    | succ j' =>
      have : pa + i + (j' + 1) = pa + (i + 1) + j' := by omega
      rw [this, ih j' (i + 1) _ (by simpa using hj) (by rw [List.length_set]; omega)]
      rfl

/-! Branch characterizations of `new_process`. -/

theorem new_process_oom_pt (m : Mem) (proc_num page_count : Nat)
    (h : allocate_page m = none) :
    new_process m proc_num page_count = (.oomPageTable, m) := by
  rw [new_process, h]

theorem new_process_oom_data (m : Mem) (proc_num page_count t : Nat) (m1 m2 : Mem)
    (h : allocate_page m = some (t, m1)) (h2 : alloc_pages m1 page_count = (none, m2)) :
    new_process m proc_num page_count = (.oomDataPage, m2) := by
  rw [new_process, h]
  dsimp only
  rw [h2]

theorem new_process_ok_eq (m : Mem) (proc_num page_count t : Nat) (m1 : Mem)
    (ds : List Nat) (m2 : Mem)
    (h : allocate_page m = some (t, m1)) (h2 : alloc_pages m1 page_count = (some ds, m2)) :
    new_process m proc_num page_count =
      (.ok, write_entries (get_address t 0) ds 0
        (m2.set (get_address 0 (PTP_OFFSET + proc_num)) t)) := by
  rw [new_process, h]
  dsimp only
  rw [h2]

theorem freeCount_pos_of_alloc (m : Mem) (j : Nat) (m' : Mem)
    (h : allocate_page m = some (j, m')) : 0 < freeCount m := by
  obtain ⟨hj, hfree, _, _⟩ := allocate_page_some m j m' h
  rw [ga_zero] at hfree
  rw [freeCount_eq_countP]
  refine List.countP_pos_iff.mpr ⟨j, List.mem_range.mpr hj, ?_⟩
  show (m.getD j 0 == 0) = true
  rw [hfree]
  rfl

/-! Membership/index bridges for `List.getD`. -/

theorem getD_mem (l : List Nat) (i : Nat) (h : i < l.length) : l.getD i 0 ∈ l := by
  rw [List.getD_eq_getElem?_getD, List.getElem?_eq_getElem h]
  exact List.getElem_mem h

theorem mem_getD (l : List Nat) (a : Nat) (h : a ∈ l) :
    ∃ i, i < l.length ∧ l.getD i 0 = a := by
  obtain ⟨i, hi, hg⟩ := List.getElem_of_mem h
  exact ⟨i, hi, by rw [List.getD_eq_getElem?_getD, List.getElem?_eq_getElem hi]; exact hg⟩

/-! Cell-level description of the state after `new_process`. -/

/-- On the successful path, `new_process` yields a page-table page `t` and data
pages `ds`, all fresh; the final state holds `t` in the directory entry,
`ds.getD i 0` in entry `i` of page `t` for `i < page_count`, the used mark 1 at
the free-map bytes of `t` and of every member of `ds`, and every other cell
keeps its prior value. -/
theorem new_process_ok_cells (m : Mem) (proc_num page_count : Nat)
    (hlen : m.length = MEM_SIZE) (hproc : proc_num < PAGE_COUNT)
    (h0 : m.getD 0 0 ≠ 0)
    (hok : (new_process m proc_num page_count).1 = .ok) :
    ∃ (t : Nat) (ds : List Nat),
      t < PAGE_COUNT ∧ 1 ≤ t ∧ m.getD t 0 = 0 ∧
      ds.length = page_count ∧ ds.Nodup ∧ page_count ≤ PAGE_COUNT - 1 ∧
      (∀ d ∈ ds, d < PAGE_COUNT ∧ 1 ≤ d ∧ m.getD d 0 = 0 ∧ d ≠ t) ∧
      (new_process m proc_num page_count).2.length = m.length ∧
      (new_process m proc_num page_count).2.getD (PTP_OFFSET + proc_num) 0 = t ∧
      (∀ i, i < page_count →
        (new_process m proc_num page_count).2.getD (PAGE_SIZE * t + i) 0 = ds.getD i 0) ∧
      (∀ a, a ≠ PTP_OFFSET + proc_num →
        (a < PAGE_SIZE * t ∨ PAGE_SIZE * t + page_count ≤ a) →
        (a ∈ ds ∨ a = t) → (new_process m proc_num page_count).2.getD a 0 = 1) ∧
      (∀ a, a ≠ PTP_OFFSET + proc_num →
        (a < PAGE_SIZE * t ∨ PAGE_SIZE * t + page_count ≤ a) →
        a ∉ ds → a ≠ t →
        (new_process m proc_num page_count).2.getD a 0 = m.getD a 0) := by
  have hPC : PAGE_COUNT = 64 := rfl
  have hPT : PTP_OFFSET = 64 := rfl
  have hPS : PAGE_SIZE = 256 := rfl
  have hMS : MEM_SIZE = 16384 := rfl
  have hlen64 : PAGE_COUNT ≤ m.length := by omega
  cases hap : allocate_page m with
  | none =>
    rw [new_process_oom_pt m proc_num page_count hap] at hok
    exact absurd hok (by simp)
  | some pm =>
    obtain ⟨t, m1⟩ := pm
    obtain ⟨ht, htfree, _, hm1⟩ := allocate_page_some m t m1 hap
    rw [ga_zero] at htfree hm1
    have hlen1 : m1.length = m.length := by rw [hm1, List.length_set]
    have hlen1' : PAGE_COUNT ≤ m1.length := by omega
    have ht1 : 1 ≤ t := by
      rcases Nat.eq_zero_or_pos t with h | h
      · exact absurd (h ▸ htfree) h0
      · exact h
    have h01 : m1.getD 0 0 ≠ 0 := by
      rw [hm1, getD_set_ne m t 0 1 (by omega)]
      exact h0
    obtain ⟨S, hnd, hSfree, hone, hkeep, hl2, hret⟩ := alloc_pages_spec page_count m1 hlen1'
    cases hr : alloc_pages m1 page_count with
    | mk r m2 =>
      cases r with
      | none =>
        rw [new_process_oom_data m proc_num page_count t m1 m2 hap hr] at hok
        exact absurd hok (by simp)
      | some ds =>
        rw [hr] at hone hkeep hl2 hret
        dsimp only at hone hkeep hl2 hret
        obtain ⟨hdsS, hSlen⟩ := hret ds rfl
        subst hdsS
        have hklen : page_count ≤ PAGE_COUNT - 1 := by
          have h1 := alloc_pages_le page_count m1 ds m2 hr hlen1'
          have h2 := freeCount_lt_of_used0 m1 (by rw [ga_zero]; exact h01)
          omega
        have hSprops : ∀ d ∈ ds, d < PAGE_COUNT ∧ 1 ≤ d ∧ m.getD d 0 = 0 ∧ d ≠ t := by
          intro d hd
          obtain ⟨hd1, hd2⟩ := hSfree d hd
          have hdt : d ≠ t := by
            intro he
            rw [he, hm1, getD_set_self m t 1 (by omega)] at hd2
            cases hd2
          have hd0 : 1 ≤ d := by
            rcases Nat.eq_zero_or_pos d with h | h
            · rw [h] at hd2; exact absurd hd2 h01
            · exact h
          rw [hm1, getD_set_ne m t d 1 (fun he => hdt he.symm)] at hd2
          exact ⟨hd1, hd0, hd2, hdt⟩
        rw [new_process_ok_eq m proc_num page_count t m1 ds m2 hap hr]
        dsimp only
        have hgat : get_address t 0 = PAGE_SIZE * t := by
          rw [ga_eq t 0 (by omega)]
          omega
        have hm3len : (m2.set (get_address 0 (PTP_OFFSET + proc_num)) t).length = m.length := by
          rw [List.length_set, hl2, hlen1]
        have hFlen : (write_entries (get_address t 0) ds 0
            (m2.set (get_address 0 (PTP_OFFSET + proc_num)) t)).length = m.length := by
          rw [write_entries_length, hm3len]
        refine ⟨t, ds, ht, ht1, htfree, hSlen, hnd, hklen, hSprops, hFlen, ?_, ?_, ?_, ?_⟩
        · rw [write_entries_getD_out _ _ _ _ _
              (by rw [hgat, hSlen, hPS]; left; omega),
            ga_zero, getD_set_self _ _ _ (by rw [hl2, hlen1]; omega)]
        · intro i hi
          rw [show PAGE_SIZE * t + i = get_address t 0 + 0 + i by rw [hgat]; omega]
          exact write_entries_getD_at (get_address t 0) ds i 0
            (m2.set (get_address 0 (PTP_OFFSET + proc_num)) t)
            (by omega) (by rw [hm3len, hgat, hPS]; omega)
        · intro a hadir harange hmem
          rw [hPS] at harange
          rw [write_entries_getD_out _ _ _ _ _ (by rw [hgat, hSlen, hPS]; omega),
            ga_zero, getD_set_ne _ _ _ _ (fun he => hadir he.symm)]
          rcases hmem with hmem | rfl
          · exact hone a hmem
          · have haS : a ∉ ds := fun hmm => (hSprops a hmm).2.2.2 rfl
            rw [hkeep a haS, hm1, getD_set_self m a 1 (by omega)]
        · intro a hadir harange hnotmem hnet
          rw [hPS] at harange
          rw [write_entries_getD_out _ _ _ _ _ (by rw [hgat, hSlen, hPS]; omega),
            ga_zero, getD_set_ne _ _ _ _ (fun he => hadir he.symm),
            hkeep a hnotmem, hm1, getD_set_ne m t a 1 (fun he => hnet he.symm)]

/-- On the data-page out-of-memory path, `new_process` only sets used marks:
the page-table page `t` and some fresh pages `S` get mark 1, and every other
cell keeps its prior value. -/
theorem new_process_oomdata_cells (m : Mem) (proc_num page_count : Nat)
    (hlen : m.length = MEM_SIZE) (h0 : m.getD 0 0 ≠ 0)
    (hoom : (new_process m proc_num page_count).1 = .oomDataPage) :
    ∃ (t : Nat) (S : List Nat),
      t < PAGE_COUNT ∧ 1 ≤ t ∧ m.getD t 0 = 0 ∧
      (∀ d ∈ S, d < PAGE_COUNT ∧ 1 ≤ d ∧ m.getD d 0 = 0 ∧ d ≠ t) ∧
      (new_process m proc_num page_count).2.length = m.length ∧
      (∀ a, (a ∈ S ∨ a = t) → (new_process m proc_num page_count).2.getD a 0 = 1) ∧
      (∀ a, a ∉ S → a ≠ t →
        (new_process m proc_num page_count).2.getD a 0 = m.getD a 0) := by
  have hPC : PAGE_COUNT = 64 := rfl
  have hMS : MEM_SIZE = 16384 := rfl
  cases hap : allocate_page m with
  | none =>
    rw [new_process_oom_pt m proc_num page_count hap] at hoom
    exact absurd hoom (by simp)
  | some pm =>
    obtain ⟨t, m1⟩ := pm
    obtain ⟨ht, htfree, _, hm1⟩ := allocate_page_some m t m1 hap
    rw [ga_zero] at htfree hm1
    have hlen1 : m1.length = m.length := by rw [hm1, List.length_set]
    have hlen1' : PAGE_COUNT ≤ m1.length := by omega
    have ht1 : 1 ≤ t := by
      rcases Nat.eq_zero_or_pos t with h | h
      · exact absurd (h ▸ htfree) h0
      · exact h
    have h01 : m1.getD 0 0 ≠ 0 := by
      rw [hm1, getD_set_ne m t 0 1 (by omega)]
      exact h0
    obtain ⟨S, hnd, hSfree, hone, hkeep, hl2, hret⟩ := alloc_pages_spec page_count m1 hlen1'
    cases hr : alloc_pages m1 page_count with
    | mk r m2 =>
      cases r with
      | some ds =>
        rw [new_process_ok_eq m proc_num page_count t m1 ds m2 hap hr] at hoom
        exact absurd hoom (by simp)
      | none =>
        rw [hr] at hone hkeep hl2
        dsimp only at hone hkeep hl2
        have hSprops : ∀ d ∈ S, d < PAGE_COUNT ∧ 1 ≤ d ∧ m.getD d 0 = 0 ∧ d ≠ t := by
          intro d hd
          obtain ⟨hd1, hd2⟩ := hSfree d hd
          have hdt : d ≠ t := by
            intro he
            rw [he, hm1, getD_set_self m t 1 (by omega)] at hd2
            cases hd2
          have hd0 : 1 ≤ d := by
            rcases Nat.eq_zero_or_pos d with h | h
            · rw [h] at hd2; exact absurd hd2 h01
            · exact h
          rw [hm1, getD_set_ne m t d 1 (fun he => hdt he.symm)] at hd2
          exact ⟨hd1, hd0, hd2, hdt⟩
        rw [new_process_oom_data m proc_num page_count t m1 m2 hap hr]
        dsimp only
        refine ⟨t, S, ht, ht1, htfree, hSprops, by rw [hl2, hlen1], ?_, ?_⟩
        · intro a hmem
          rcases hmem with hmem | rfl
          · exact hone a hmem
          · have haS : a ∉ S := fun hmm => (hSprops a hmm).2.2.2 rfl
            rw [hkeep a haS, hm1, getD_set_self m a 1 (by omega)]
        · intro a hnotmem hnet
          rw [hkeep a hnotmem, hm1, getD_set_ne m t a 1 (fun he => hnet he.symm)]

/-! Claim theorems. -/

/-- C1: the claim says that for a process whose directory entry is 0,
`destroy_process` reports process-not-found and performs no mutation.  The code
(`kill_process`) has no such check at all: on the freshly initialized store,
process 0 is absent, yet `kill_process` mutates the store (it treats page 0 as
the page table, marks page 0 free and frees pages named by nonzero bytes of
page 0); its return channel carries no report whatsoever.  This theorem
evaluates the code at that failing input. -/
theorem c1_kill_absent_unchecked_mutates :
    get_page_table init_mem 0 = 0 ∧ kill_process init_mem 0 ≠ init_mem := by
  decide

/-- C2: the claim says the free-map byte of page 0 is nonzero in every state
reachable from a fresh store by the four operations.  The code violates this:
`destroy_process` of the (absent) process 0, immediately after initialization,
sets the free-map byte of page 0 to 0, because the missing absent-process check
makes it "free" page 0 as if it were the page-table page. -/
theorem c2_page0_freed_by_kill_absent :
    init_mem.getD (get_address 0 0) 0 ≠ 0 ∧
    (kill_process init_mem 0).getD (get_address 0 0) 0 = 0 := by
  decide

/-- C5: every allocation performed by `create_process` goes through
`allocate_page` (both the page-table allocation and each data-page allocation
of `new_process` are calls to it): a successful allocation returns the lowest
free index, which was free while all lower indices were used, and the new
state marks exactly that byte; a failed scan means every index was used, and
`new_process` then returns with the store unchanged. -/
theorem c5_first_fit (m : Mem) :
    (∀ j m', allocate_page m = some (j, m') →
      j < PAGE_COUNT ∧ m.getD (get_address 0 j) 0 = 0 ∧
      (∀ x, x < j → m.getD (get_address 0 x) 0 ≠ 0) ∧
      m' = m.set (get_address 0 j) 1) ∧
    (allocate_page m = none →
      (∀ x, x < PAGE_COUNT → m.getD (get_address 0 x) 0 ≠ 0) ∧
      ∀ proc_num page_count, new_process m proc_num page_count = (.oomPageTable, m)) := by
  constructor
  · exact fun j m' h => allocate_page_some m j m' h
  · intro h
    exact ⟨allocate_page_none m h,
      fun proc_num page_count => new_process_oom_pt m proc_num page_count h⟩

/-- C5 witness: on the two-cell store `[1, 0]`, the scan skips used index 0 and
allocates index 1, marking exactly that byte. -/
theorem c5_first_fit_witness :
    1 < PAGE_COUNT ∧ ([1, 0] : Mem).getD (get_address 0 1) 0 = 0 ∧
    (∀ x, x < 1 → ([1, 0] : Mem).getD (get_address 0 x) 0 ≠ 0) ∧
    ([1, 1] : Mem) = ([1, 0] : Mem).set (get_address 0 1) 1 :=
  (c5_first_fit [1, 0]).1 1 [1, 1] (by decide)

/-- C4: when `create_process` runs out of memory while allocating a data page,
the page-table page allocated in the same call stays marked used, every
already-used byte keeps its value, nothing at or above the directory region is
written (no directory entry, no page-table entry, no page contents), and —
because the data loop fails only once the free map is exhausted — every
free-map byte of the final state is marked used, every previously free byte
with the exact mark 1: in particular every data page allocated earlier in the
same failing call (free before the call, marked at its allocation) remains
marked used, nothing is rolled back.  Moreover with N free pages, requesting
`page_count > N - 1` (over the integers, `page_count ≥ N`) reports an
out-of-memory result and leaves the directory entry for the process at its
prior value. -/
theorem c4_oom_data_no_commit (m : Mem) (proc_num page_count : Nat)
    (hlen : PAGE_COUNT ≤ m.length) :
    ((new_process m proc_num page_count).1 = .oomDataPage →
      (∃ t m1, allocate_page m = some (t, m1) ∧
        (new_process m proc_num page_count).2.getD (get_address 0 t) 0 ≠ 0) ∧
      (∀ a, m.getD a 0 ≠ 0 →
        (new_process m proc_num page_count).2.getD a 0 = m.getD a 0) ∧
      (∀ a, PTP_OFFSET ≤ a →
        (new_process m proc_num page_count).2.getD a 0 = m.getD a 0) ∧
      (∀ x, x < PAGE_COUNT →
        (new_process m proc_num page_count).2.getD (get_address 0 x) 0 ≠ 0) ∧
      (∀ x, x < PAGE_COUNT → m.getD (get_address 0 x) 0 = 0 →
        (new_process m proc_num page_count).2.getD (get_address 0 x) 0 = 1)) ∧
    (freeCount m ≤ page_count →
      ((new_process m proc_num page_count).1 = .oomPageTable ∨
       (new_process m proc_num page_count).1 = .oomDataPage) ∧
      (new_process m proc_num page_count).2.getD (get_address 0 (PTP_OFFSET + proc_num)) 0 =
        m.getD (get_address 0 (PTP_OFFSET + proc_num)) 0) := by
  have hPC : PAGE_COUNT = 64 := rfl
  have hPT : PTP_OFFSET = 64 := rfl
  cases hap : allocate_page m with
  | none =>
    rw [new_process_oom_pt m proc_num page_count hap]
    constructor
    · intro hoom
      simp at hoom
    · intro _
      exact ⟨Or.inl rfl, rfl⟩
  | some pm =>
    obtain ⟨t, m1⟩ := pm
    obtain ⟨ht, htfree, _, hm1⟩ := allocate_page_some m t m1 hap
    rw [ga_zero] at htfree hm1
    have hlen1 : PAGE_COUNT ≤ m1.length := by rw [hm1, List.length_set]; exact hlen
    obtain ⟨S, hnd, hSfree, hone, hkeep, hl2, hret⟩ := alloc_pages_spec page_count m1 hlen1
    cases hr : alloc_pages m1 page_count with
    | mk r m2 =>
      cases r with
      | some ds =>
        rw [new_process_ok_eq m proc_num page_count t m1 ds m2 hap hr]
        constructor
        · intro hoom
          simp at hoom
        · intro hfc
          exfalso
          have hk := alloc_pages_le page_count m1 ds m2 hr hlen1
          have hfc1 := freeCount_eq_succ_of_alloc m t m1 hap hlen
          omega
      | none =>
        rw [new_process_oom_data m proc_num page_count t m1 m2 hap hr]
        rw [hr] at hone hkeep hl2
        dsimp only at hone hkeep hl2
        have hkey1 : ∀ a, m.getD a 0 ≠ 0 → m2.getD a 0 = m.getD a 0 := by
          intro a ha
          have hat : a ≠ t := fun he => ha (he ▸ htfree)
          have haS : a ∉ S := by
            intro hmem
            have h2 := (hSfree a hmem).2
            rw [hm1, getD_set_ne m t a 1 (fun he => hat he.symm)] at h2
            exact ha h2
          rw [hkeep a haS, hm1, getD_set_ne m t a 1 (fun he => hat he.symm)]
        have hkey2 : ∀ a, PTP_OFFSET ≤ a → m2.getD a 0 = m.getD a 0 := by
          intro a ha
          have hat : a ≠ t := by omega
          have haS : a ∉ S := by
            intro hmem
            have := (hSfree a hmem).1
            omega
          rw [hkeep a haS, hm1, getD_set_ne m t a 1 (fun he => hat he.symm)]
        have hkey3 : m2.getD t 0 ≠ 0 := by
          by_cases hts : t ∈ S
          · rw [hone t hts]
            exact one_ne_zero
          · rw [hkeep t hts, hm1, getD_set_self m t 1 (by omega)]
            exact one_ne_zero
        have hfull : ∀ x, x < PAGE_COUNT → m2.getD (get_address 0 x) 0 ≠ 0 :=
          alloc_pages_none_full page_count m1 m2 hr
        have hfree1 : ∀ x, x < PAGE_COUNT → m.getD (get_address 0 x) 0 = 0 →
            m2.getD (get_address 0 x) 0 = 1 := by
          intro x hx hxfree
          rw [ga_zero] at hxfree ⊢
          by_cases hxs : x ∈ S
          · exact hone x hxs
          · rw [hkeep x hxs, hm1]
            by_cases hxt : x = t
            · subst hxt
              rw [getD_set_self m x 1 (by omega)]
            · exfalso
              have h2 := hfull x hx
              rw [ga_zero, hkeep x hxs, hm1,
                getD_set_ne m t x 1 (fun he => hxt he.symm)] at h2
              exact h2 hxfree
        constructor
        · intro _
          exact ⟨⟨t, m1, rfl, by rw [ga_zero]; exact hkey3⟩, hkey1, hkey2, hfull, hfree1⟩
        · intro _
          refine ⟨Or.inr rfl, ?_⟩
          rw [ga_zero]
          exact hkey2 _ (Nat.le_add_right _ _)

/-- C4 witness: with only page 63 free (one free page), requesting 2 data
pages hits the data-page out-of-memory path, every free-map byte (page 63's
included — the page-table page allocated in the failing call) is marked used
afterwards, and the directory entry for process 5 is left at its prior
value. -/
theorem c4_oom_data_no_commit_witness :
    ((new_process ((List.replicate PAGE_COUNT (1 : Nat)).set 63 0) 5 2).1 =
      .oomDataPage ∧
     (∀ x, x < PAGE_COUNT →
       (new_process ((List.replicate PAGE_COUNT (1 : Nat)).set 63 0) 5 2).2.getD
         (get_address 0 x) 0 ≠ 0)) ∧
    ((new_process ((List.replicate PAGE_COUNT (1 : Nat)).set 63 0) 5 2).1 =
      .oomPageTable ∨
     (new_process ((List.replicate PAGE_COUNT (1 : Nat)).set 63 0) 5 2).1 =
      .oomDataPage) ∧
    (new_process ((List.replicate PAGE_COUNT (1 : Nat)).set 63 0) 5 2).2.getD
      (get_address 0 (PTP_OFFSET + 5)) 0 =
      ((List.replicate PAGE_COUNT (1 : Nat)).set 63 0).getD
        (get_address 0 (PTP_OFFSET + 5)) 0 :=
  ⟨⟨by decide,
    ((c4_oom_data_no_commit ((List.replicate PAGE_COUNT (1 : Nat)).set 63 0) 5 2
      (by decide)).1 (by decide)).2.2.2.1⟩,
   (c4_oom_data_no_commit ((List.replicate PAGE_COUNT (1 : Nat)).set 63 0) 5 2
     (by decide)).2 (by decide)⟩

/-- C6: when the consulted page-table entry for the virtual page of `vaddr` is
0, `store_byte` returns a fault and the unchanged store, and `load_byte`
returns a fault and no value. -/
theorem c6_fault_no_mutation (m : Mem) (proc_num vaddr val : Nat)
    (h : m.getD (get_address (get_page_table m proc_num) (vaddr >>> PAGE_SHIFT)) 0 = 0) :
    store_byte m proc_num vaddr val = (none, m) ∧ load_byte m proc_num vaddr = none := by
  constructor
  · simp only [store_byte]
    rw [if_pos h]
  · simp only [load_byte]
    rw [if_pos h]

/-- C6 witness: on the empty store every entry reads 0, so the access faults
with no mutation. -/
theorem c6_fault_no_mutation_witness :
    store_byte [] 0 0 7 = (none, []) ∧ load_byte [] 0 0 = none :=
  c6_fault_no_mutation [] 0 0 7 (by decide)

/-- C9: after initialization every byte of the store is 0 except the free-map
byte of page 0, which is nonzero; consequently the free-map snapshot shows
exactly page 0 used and the other 63 pages free. -/
theorem c9_init_state :
    (∀ a, a < MEM_SIZE → a ≠ get_address 0 0 → init_mem.getD a 0 = 0) ∧
    init_mem.getD (get_address 0 0) 0 ≠ 0 ∧
    free_map_snapshot init_mem = true :: List.replicate (PAGE_COUNT - 1) false := by
  refine ⟨?_, ?_, ?_⟩
  · intro a _ ha
    rw [ga_zero] at ha
    rw [init_mem_getD, if_neg ha]
  · rw [ga_zero, init_mem_getD]
    simp
  · decide

/-- C9 witness: byte 5 of the fresh store is 0. -/
theorem c9_init_state_witness : init_mem.getD 5 0 = 0 :=
  c9_init_state.1 5 (by decide) (by decide)

/-- C10: for a process whose directory entry is 0, `store_byte` and
`load_byte` use physical page 0 itself as the page table: the byte at offset
`virtual_page` inside page 0 is read as the physical page; they fault exactly
when that byte is 0, and otherwise access that physical page. -/
theorem c10_absent_page0_translation (m : Mem) (proc_num vaddr val : Nat)
    (h : get_page_table m proc_num = 0) :
    (m.getD (get_address 0 (vaddr >>> PAGE_SHIFT)) 0 = 0 →
      store_byte m proc_num vaddr val = (none, m) ∧ load_byte m proc_num vaddr = none) ∧
    (m.getD (get_address 0 (vaddr >>> PAGE_SHIFT)) 0 ≠ 0 →
      store_byte m proc_num vaddr val =
        (some (get_address (m.getD (get_address 0 (vaddr >>> PAGE_SHIFT)) 0) (vaddr &&& 255)),
         m.set (get_address (m.getD (get_address 0 (vaddr >>> PAGE_SHIFT)) 0)
           (vaddr &&& 255)) (val % 256)) ∧
      load_byte m proc_num vaddr =
        some (get_address (m.getD (get_address 0 (vaddr >>> PAGE_SHIFT)) 0) (vaddr &&& 255),
          m.getD (get_address (m.getD (get_address 0 (vaddr >>> PAGE_SHIFT)) 0)
            (vaddr &&& 255)) 0)) := by
  constructor
  · intro he
    constructor
    · simp only [store_byte, h]
      rw [if_pos he]
    · simp only [load_byte, h]
      rw [if_pos he]
  · intro he
    constructor
    · simp only [store_byte, h]
      rw [if_neg he]
    · simp only [load_byte, h]
      rw [if_neg he]

/-- C10 witness: immediately after initialization, process 3 is absent, the
byte at offset 0 of page 0 is 1 (page 0's own used mark), and so
`store_byte(3, 0, 42)` writes 42 into physical page 1 (address 256) instead of
faulting. -/
theorem c10_absent_page0_translation_witness :
    store_byte init_mem 3 0 42 =
      (some (get_address (init_mem.getD (get_address 0 (0 >>> PAGE_SHIFT)) 0) (0 &&& 255)),
       init_mem.set (get_address (init_mem.getD (get_address 0 (0 >>> PAGE_SHIFT)) 0)
         (0 &&& 255)) (42 % 256)) ∧
    load_byte init_mem 3 0 =
      some (get_address (init_mem.getD (get_address 0 (0 >>> PAGE_SHIFT)) 0) (0 &&& 255),
        init_mem.getD (get_address (init_mem.getD (get_address 0 (0 >>> PAGE_SHIFT)) 0)
          (0 &&& 255)) 0) :=
  (c10_absent_page0_translation init_mem 3 0 42 (by decide)).2 (by decide)

/-- C3 counterexample: after `init; create(0,2); destroy(0); create(1,1)`,
process 1 is live and its page-table page (page 1, reused from process 0
without being cleared) still holds the stale entry 3 at index 1, while the
free-map byte of page 3 is 0 — a nonzero page-table entry of a live process
names a page marked free, refuting the claimed invariant. -/
theorem c3_consistency_cex :
    let m3 := (new_process (kill_process (new_process init_mem 0 2).2 0) 1 1).2
    get_page_table m3 1 ≠ 0 ∧
    m3.getD (get_address (get_page_table m3 1) 1) 0 ≠ 0 ∧
    m3.getD (get_address 0 (m3.getD (get_address (get_page_table m3 1) 1) 0)) 0 = 0 := by
  decide

/-- C7 counterexample: a reachable state in which a successful
`create_process(5, 1)` picks a page-table page (page 3) whose stale contents
name a page (page 5) that is currently marked used; the immediately following
`destroy_process(5)` then frees that page as well, so the free-map snapshot
after destroy differs from the snapshot before create. -/
theorem c7_snapshot_cex :
    let m1 := (new_process init_mem 0 2).2
    let m2 := kill_process m1 0
    let m3 := (new_process m2 1 1).2
    let m4 := (new_process m3 2 2).2
    let m5 := kill_process m4 1
    let m6 := (new_process m5 4 1).2
    (new_process m6 5 1).1 = .ok ∧
    free_map_snapshot (kill_process (new_process m6 5 1).2 5) ≠ free_map_snapshot m6 := by
  decide

/-- C8 counterexample: a reachable state in which the page-table entry for the
virtual page of `vaddr = 1285` is nonzero (it maps to the page-table page
itself at the same offset), yet `store_byte` of value 7 followed by
`load_byte` does not report 7: the store overwrites the consulted entry. -/
theorem c8_roundtrip_cex :
    let m1 := (new_process init_mem 0 2).2
    let m2 := (store_byte m1 0 5 2).2
    let m3 := kill_process m2 0
    let m5 := (new_process (new_process m3 1 0).2 2 1).2
    m5.getD (get_address (get_page_table m5 2) (1285 >>> PAGE_SHIFT)) 0 ≠ 0 ∧
    (load_byte (store_byte m5 2 1285 7).2 2 1285).map Prod.snd ≠ some 7 := by
  decide

/-- C8 (amended): for a process number in range and a byte value, if the
consulted page-table entry is nonzero and the translated physical address
differs from the address of that entry itself, then `store_byte` followed by
`load_byte` at the same virtual address reports the stored value. -/
theorem c8_roundtrip (m : Mem) (proc_num vaddr v : Nat)
    (hproc : proc_num < PAGE_COUNT) (hv : v < 256)
    (he : m.getD (get_address (get_page_table m proc_num) (vaddr >>> PAGE_SHIFT)) 0 ≠ 0)
    (hne : get_address
        (m.getD (get_address (get_page_table m proc_num) (vaddr >>> PAGE_SHIFT)) 0)
        (vaddr &&& 255) ≠ get_address (get_page_table m proc_num) (vaddr >>> PAGE_SHIFT))
    (hlen : get_address
        (m.getD (get_address (get_page_table m proc_num) (vaddr >>> PAGE_SHIFT)) 0)
        (vaddr &&& 255) < m.length) :
    (load_byte (store_byte m proc_num vaddr v).2 proc_num vaddr).map Prod.snd = some v := by
  have hPC : PAGE_COUNT = 64 := rfl
  have hPT : PTP_OFFSET = 64 := rfl
  have hoff : vaddr &&& 255 < 256 := by
    have h255 : vaddr &&& 255 ≤ 255 := Nat.and_le_right
    omega
  have hmod : v % 256 = v := Nat.mod_eq_of_lt hv
  have he1 : 1 ≤ m.getD (get_address (get_page_table m proc_num) (vaddr >>> PAGE_SHIFT)) 0 :=
    Nat.one_le_iff_ne_zero.mpr he
  have hpha : get_address
      (m.getD (get_address (get_page_table m proc_num) (vaddr >>> PAGE_SHIFT)) 0)
      (vaddr &&& 255) =
      PAGE_SIZE * m.getD (get_address (get_page_table m proc_num) (vaddr >>> PAGE_SHIFT)) 0 +
        (vaddr &&& 255) := ga_eq _ _ hoff
  have hPS : PAGE_SIZE = 256 := rfl
  rw [hPS] at hpha
  simp only [store_byte]
  rw [if_neg he]
  simp only [load_byte, hmod]
  set pha := get_address
      (m.getD (get_address (get_page_table m proc_num) (vaddr >>> PAGE_SHIFT)) 0)
      (vaddr &&& 255) with hphadef
  have hbig : PTP_OFFSET + proc_num < pha := by omega
  have h1 : get_page_table (m.set pha v) proc_num = get_page_table m proc_num := by
    rw [get_page_table, get_page_table, ga_zero]
    exact getD_set_ne _ _ _ _ (by omega)
  rw [h1]
  rw [getD_set_ne _ _ _ _ hne]
  rw [if_neg he]
  simp only [Option.map_some']
  rw [getD_set_self _ _ _ hlen]

/-- C8 witness: on a store where the directory maps process 0 to page 1 and
the entry for virtual page 0 maps to page 2, storing 7 at virtual address 0
and loading it back reports 7. -/
theorem c8_roundtrip_witness :
    (load_byte
      (store_byte (((List.replicate 600 (0 : Nat)).set 64 1).set 256 2) 0 0 7).2 0 0).map
        Prod.snd = some 7 :=
  c8_roundtrip (((List.replicate 600 (0 : Nat)).set 64 1).set 256 2) 0 0 7
    (by decide) (by decide) (by decide) (by decide) (by decide)

/-- C7 (amended): from a state whose page-0 free-map byte is used and whose
free pages all have all-zero contents (no stale bytes), a successful
`create_process` followed immediately by `destroy_process` of that process
restores the free-map snapshot exactly. -/
theorem c7_snapshot_restore (m : Mem) (proc_num page_count : Nat)
    (hlen : m.length = MEM_SIZE)
    (hproc : proc_num < PAGE_COUNT)
    (hp0 : m.getD (get_address 0 0) 0 ≠ 0)
    (hclean : ∀ j, j < PAGE_COUNT → m.getD (get_address 0 j) 0 = 0 →
      ∀ o, o < PAGE_SIZE → m.getD (get_address j o) 0 = 0)
    (hok : (new_process m proc_num page_count).1 = .ok) :
    free_map_snapshot (kill_process (new_process m proc_num page_count).2 proc_num) =
      free_map_snapshot m := by
  have hPC : PAGE_COUNT = 64 := rfl
  have hPT : PTP_OFFSET = 64 := rfl
  have hPS : PAGE_SIZE = 256 := rfl
  have hMS : MEM_SIZE = 16384 := rfl
  rw [ga_zero] at hp0
  have hclean' : ∀ j, j < PAGE_COUNT → m.getD j 0 = 0 →
      ∀ o, o < PAGE_SIZE → m.getD (256 * j + o) 0 = 0 := by
    intro j hj hfree o ho
    have h1 := hclean j hj (by rw [ga_zero]; exact hfree) o ho
    have h2 := ga_eq j o (by omega)
    rw [hPS] at h2
    rw [h2] at h1
    exact h1
  obtain ⟨t, ds, ht, ht1, htfree, hdslen, hnd, hklen, hdsprops, hFlen, hdir, hent,
    hmark, hcell⟩ := new_process_ok_cells m proc_num page_count hlen hproc hp0 hok
  set F := (new_process m proc_num page_count).2 with hFdef
  have hgpt : get_page_table F proc_num = t := by
    rw [get_page_table, ga_zero]
    exact hdir
  have hgat : get_address t 0 = 256 * t := by
    have h1 := ga_eq t 0 (by omega)
    rw [hPS] at h1
    omega
  have hent' : ∀ i, i < page_count → F.getD (256 * t + i) 0 = ds.getD i 0 := by
    intro i hi
    have h1 := hent i hi
    rw [hPS] at h1
    exact h1
  have hcell' : ∀ a, a ≠ PTP_OFFSET + proc_num → (a < 256 * t ∨ 256 * t + page_count ≤ a) →
      a ∉ ds → a ≠ t → F.getD a 0 = m.getD a 0 := by
    intro a h1 h2 h3 h4
    exact hcell a h1 (by rw [hPS]; exact h2) h3 h4
  have hread : ∀ i, i < PAGE_COUNT → F.getD (256 * t + i) 0 =
      if i < page_count then ds.getD i 0 else 0 := by
    intro i hi
    by_cases hik : i < page_count
    · rw [if_pos hik]
      exact hent' i hik
    · rw [if_neg hik]
      have hnotds : 256 * t + i ∉ ds := by
        intro hmm
        have := (hdsprops _ hmm).1
        omega
      rw [hcell' (256 * t + i) (by omega) (by right; omega) hnotds (by omega)]
      exact hclean' t (by omega) htfree i (by omega)
  have hvals : ∀ i ∈ List.range PAGE_COUNT, F.getD (get_address t 0 + i) 0 < PAGE_SIZE := by
    intro i hi
    rw [hgat, hread i (List.mem_range.mp hi)]
    by_cases hik : i < page_count
    · rw [if_pos hik]
      have hm2 : ds.getD i 0 ∈ ds := getD_mem ds i (by omega)
      have := (hdsprops _ hm2).1
      omega
    · rw [if_neg hik]
      omega
  have hpa : PAGE_SIZE ≤ get_address t 0 := by
    rw [hgat]
    omega
  have hfold_len : ((List.range PAGE_COUNT).foldl (kill_step (get_address t 0)) F).length =
      m.length := by
    rw [kill_fold_length, hFlen]
  -- the final free-map bytes coincide with the original ones
  have hbyte : ∀ j, j < PAGE_COUNT →
      (kill_process F proc_num).getD j 0 = m.getD j 0 := by
    intro j hj
    simp only [kill_process]
    rw [hgpt]
    simp only [ga_zero]
    rw [getD_set_ne _ _ _ _ (by omega)]
    by_cases hjt : j = t
    · subst hjt
      rw [getD_set_self _ _ _ (by rw [hfold_len]; omega)]
      omega
    · rw [getD_set_ne _ _ _ _ (fun he => hjt he.symm)]
      by_cases hjds : j ∈ ds
      · obtain ⟨idx, hidx, hval⟩ := mem_getD ds j hjds
        have hidx' : idx < page_count := by omega
        have hvalue : F.getD (get_address t 0 + idx) 0 = j := by
          rw [hgat, hread idx (by omega), if_pos hidx', hval]
        have hj1 : 1 ≤ j := (hdsprops j hjds).2.1
        have h0 := kill_fold_zero (get_address t 0) hpa (List.range PAGE_COUNT) F hvals
          idx (List.mem_range.mpr (by omega)) (by rw [hvalue]; omega)
          (by rw [hvalue, hFlen]; omega)
        rw [hvalue] at h0
        rw [h0]
        exact ((hdsprops j hjds).2.2.1).symm
      · have hkeepj := kill_fold_keep (get_address t 0) hpa (List.range PAGE_COUNT) F hvals j
          (by
            intro i hi
            rw [hgat, hread i (List.mem_range.mp hi)]
            by_cases hik : i < page_count
            · rw [if_pos hik]
              right
              intro he
              exact hjds (he ▸ getD_mem ds i (by omega))
            · rw [if_neg hik]
              left
              rfl)
        rw [hkeepj]
        exact hcell' j (by omega) (by left; omega) hjds hjt
  -- pointwise equality of the snapshots
  rw [free_map_snapshot, free_map_snapshot]
  apply List.map_congr_left
  intro i hi
  rw [ga_zero, hbyte i (List.mem_range.mp hi)]

/-- C7 witness: on the fresh store, `create_process(0, 2)` succeeds and the
immediately following `destroy_process(0)` restores the free-map snapshot. -/
theorem c7_snapshot_restore_witness :
    (new_process init_mem 0 2).1 = .ok ∧
    free_map_snapshot (kill_process (new_process init_mem 0 2).2 0) =
      free_map_snapshot init_mem :=
  ⟨by decide,
   c7_snapshot_restore init_mem 0 2 init_mem_length (by decide)
     (by rw [ga_zero, init_mem_getD]; simp)
     (fun j hj hfree o ho => by
       rw [ga_zero, init_mem_getD] at hfree
       have hj0 : ¬ j = 0 := by
         intro h
         rw [if_pos h] at hfree
         cases hfree
       have hne : get_address j o ≠ 0 := by
         have h1 := ga_eq j o ho
         have hPS : PAGE_SIZE = 256 := rfl
         rw [hPS] at h1
         omega
       rw [init_mem_getD, if_neg hne])
     (by decide)⟩

/-! Invariant for states reachable by `new_process` alone (for claim C3). -/

/-- Invariant carried through `new_process`-only executions: the store has the
right length, page 0 is marked used, directory entries are page indices below
`PAGE_COUNT`, the page-table page of every live process is marked used, every
nonzero entry of a live page table is a page index below `PAGE_COUNT` whose
free-map byte is used, and free pages have all-zero contents. -/
structure MemInv (m : Mem) : Prop where
  len : m.length = MEM_SIZE
  zero_used : m.getD 0 0 ≠ 0
  dir_lt : ∀ p, p < PAGE_COUNT → m.getD (PTP_OFFSET + p) 0 < PAGE_COUNT
  pt_used : ∀ p, p < PAGE_COUNT → m.getD (PTP_OFFSET + p) 0 ≠ 0 →
    m.getD (m.getD (PTP_OFFSET + p) 0) 0 ≠ 0
  ent_ok : ∀ p, p < PAGE_COUNT → m.getD (PTP_OFFSET + p) 0 ≠ 0 →
    ∀ i, i < PAGE_COUNT →
      m.getD (256 * m.getD (PTP_OFFSET + p) 0 + i) 0 ≠ 0 →
      m.getD (256 * m.getD (PTP_OFFSET + p) 0 + i) 0 < PAGE_COUNT ∧
      m.getD (m.getD (256 * m.getD (PTP_OFFSET + p) 0 + i) 0) 0 ≠ 0
  clean : ∀ j, j < PAGE_COUNT → m.getD j 0 = 0 →
    ∀ o, o < PAGE_SIZE → m.getD (256 * j + o) 0 = 0

theorem memInv_init : MemInv init_mem := by
  have hMS : MEM_SIZE = 16384 := rfl
  have hPC : PAGE_COUNT = 64 := rfl
  have hPT : PTP_OFFSET = 64 := rfl
  have hPS : PAGE_SIZE = 256 := rfl
  refine ⟨init_mem_length, ?_, ?_, ?_, ?_, ?_⟩
  · rw [init_mem_getD]
    simp
  · intro p hp
    rw [init_mem_getD, if_neg (by omega)]
    omega
  · intro p hp hne
    rw [init_mem_getD, if_neg (by omega)] at hne
    exact absurd rfl hne
  · intro p hp hne
    rw [init_mem_getD, if_neg (by omega)] at hne
    exact absurd rfl hne
  · intro j hj hfree o ho
    rw [init_mem_getD] at hfree
    have hj0 : ¬ j = 0 := by
      intro h
      rw [if_pos h] at hfree
      cases hfree
    rw [init_mem_getD, if_neg (by omega)]

theorem new_process_oompt_state (m : Mem) (proc_num page_count : Nat)
    (h : (new_process m proc_num page_count).1 = .oomPageTable) :
    (new_process m proc_num page_count).2 = m := by
  cases hap : allocate_page m with
  | none => rw [new_process_oom_pt m proc_num page_count hap]
  | some pm =>
    obtain ⟨t, m1⟩ := pm
    cases hr : alloc_pages m1 page_count with
    | mk r m2 =>
      cases r with
      | none =>
        rw [new_process_oom_data m proc_num page_count t m1 m2 hap hr] at h
        exact absurd h (by simp)
      | some ds =>
        rw [new_process_ok_eq m proc_num page_count t m1 ds m2 hap hr] at h
        exact absurd h (by simp)

theorem memInv_step (m : Mem) (inv : MemInv m) (proc_num page_count : Nat)
    (hq : proc_num < PAGE_COUNT) :
    MemInv (new_process m proc_num page_count).2 := by
  have hPC : PAGE_COUNT = 64 := rfl
  have hPT : PTP_OFFSET = 64 := rfl
  have hPS : PAGE_SIZE = 256 := rfl
  have hMS : MEM_SIZE = 16384 := rfl
  cases hres : (new_process m proc_num page_count).1 with
  | oomPageTable =>
    rw [new_process_oompt_state m proc_num page_count hres]
    exact inv
  | oomDataPage =>
    obtain ⟨t, S, ht, ht1, htfree, hSprops, hFlen, hmark, hcell⟩ :=
      new_process_oomdata_cells m proc_num page_count inv.len inv.zero_used hres
    set F := (new_process m proc_num page_count).2 with hFdef
    have hkeep_ge : ∀ a, PAGE_COUNT ≤ a → F.getD a 0 = m.getD a 0 := by
      intro a ha
      have h3 : a ∉ S := fun hmm => by have := (hSprops a hmm).1; omega
      exact hcell a h3 (by omega)
    have hkeep_used : ∀ a, m.getD a 0 ≠ 0 → F.getD a 0 ≠ 0 := by
      intro a ha
      by_cases hmem : a ∈ S ∨ a = t
      · rw [hmark a hmem]
        exact one_ne_zero
      · push_neg at hmem
        rw [hcell a hmem.1 hmem.2]
        exact ha
    refine ⟨by rw [hFlen, inv.len], ?_, ?_, ?_, ?_, ?_⟩
    · have h0 : (0 : Nat) ∉ S := fun hmm => by have := (hSprops 0 hmm).2.1; omega
      rw [hcell 0 h0 (by omega)]
      exact inv.zero_used
    · intro p hp
      rw [hkeep_ge (PTP_OFFSET + p) (by omega)]
      exact inv.dir_lt p hp
    · intro p hp hne
      rw [hkeep_ge (PTP_OFFSET + p) (by omega)] at hne ⊢
      exact hkeep_used _ (inv.pt_used p hp hne)
    · intro p hp hne i hi hentne
      rw [hkeep_ge (PTP_OFFSET + p) (by omega)] at hne hentne ⊢
      have htp1 : 1 ≤ m.getD (PTP_OFFSET + p) 0 := by omega
      rw [hkeep_ge (256 * m.getD (PTP_OFFSET + p) 0 + i) (by omega)] at hentne ⊢
      obtain ⟨h1, h2⟩ := inv.ent_ok p hp hne i hi hentne
      exact ⟨h1, hkeep_used _ h2⟩
    · intro j hj hfree o ho
      have hjm : m.getD j 0 = 0 := by
        by_cases hmem : j ∈ S ∨ j = t
        · rw [hmark j hmem] at hfree
          cases hfree
        · push_neg at hmem
          rw [hcell j hmem.1 hmem.2] at hfree
          exact hfree
      have hj1 : 1 ≤ j := by
        rcases Nat.eq_zero_or_pos j with h | h
        · rw [h] at hjm
          exact absurd hjm inv.zero_used
        · exact h
      rw [hkeep_ge (256 * j + o) (by omega)]
      exact inv.clean j hj hjm o ho
  | ok =>
    obtain ⟨t, ds, ht, ht1, htfree, hdslen, hnd, hklen, hdsprops, hFlen, hdir, hent,
      hmark, hcell⟩ := new_process_ok_cells m proc_num page_count inv.len hq
        inv.zero_used hres
    set F := (new_process m proc_num page_count).2 with hFdef
    have hent' : ∀ i, i < page_count → F.getD (256 * t + i) 0 = ds.getD i 0 := by
      intro i hi
      have h1 := hent i hi
      rw [hPS] at h1
      exact h1
    have hmark' : ∀ a, a ≠ PTP_OFFSET + proc_num →
        (a < 256 * t ∨ 256 * t + page_count ≤ a) → (a ∈ ds ∨ a = t) →
        F.getD a 0 = 1 := by
      intro a h1 h2 h3
      exact hmark a h1 (by rw [hPS]; exact h2) h3
    have hcell' : ∀ a, a ≠ PTP_OFFSET + proc_num →
        (a < 256 * t ∨ 256 * t + page_count ≤ a) → a ∉ ds → a ≠ t →
        F.getD a 0 = m.getD a 0 := by
      intro a h1 h2 h3 h4
      exact hcell a h1 (by rw [hPS]; exact h2) h3 h4
    have hsmall_mark : ∀ a, a < PAGE_COUNT → (a ∈ ds ∨ a = t) → F.getD a 0 = 1 := by
      intro a ha hmem
      exact hmark' a (by omega) (by left; omega) hmem
    have hsmall_keep : ∀ a, a < PAGE_COUNT → a ∉ ds → a ≠ t →
        F.getD a 0 = m.getD a 0 := by
      intro a ha h3 h4
      exact hcell' a (by omega) (by left; omega) h3 h4
    have hsmall_used : ∀ a, a < PAGE_COUNT → m.getD a 0 ≠ 0 → F.getD a 0 ≠ 0 := by
      intro a ha hu
      by_cases hmem : a ∈ ds ∨ a = t
      · rw [hsmall_mark a ha hmem]
        exact one_ne_zero
      · push_neg at hmem
        rw [hsmall_keep a ha hmem.1 hmem.2]
        exact hu
    have hdir_keep : ∀ p, p < PAGE_COUNT → p ≠ proc_num →
        F.getD (PTP_OFFSET + p) 0 = m.getD (PTP_OFFSET + p) 0 := by
      intro p hp hpq
      exact hcell' (PTP_OFFSET + p) (by omega) (by left; omega)
        (fun hmm => by have := (hdsprops _ hmm).1; omega) (by omega)
    have hpage_keep : ∀ u i, u < PAGE_COUNT → u ≠ t → 1 ≤ u → i < PAGE_SIZE →
        F.getD (256 * u + i) 0 = m.getD (256 * u + i) 0 := by
      intro u i hu hut hu1 hi
      refine hcell' (256 * u + i) (by omega) ?_
        (fun hmm => by have := (hdsprops _ hmm).1; omega) (by omega)
      rcases Nat.lt_or_ge u t with h | h
      · left
        omega
      · right
        have ht' : t < u := by omega
        omega
    refine ⟨by rw [hFlen, inv.len], ?_, ?_, ?_, ?_, ?_⟩
    · have h0ds : (0 : Nat) ∉ ds := fun hmm => by have := (hdsprops 0 hmm).2.1; omega
      rw [hsmall_keep 0 (by omega) h0ds (by omega)]
      exact inv.zero_used
    · intro p hp
      by_cases hpq : p = proc_num
      · subst hpq
        rw [hdir]
        exact ht
      · rw [hdir_keep p hp hpq]
        exact inv.dir_lt p hp
    · intro p hp hne
      by_cases hpq : p = proc_num
      · subst hpq
        rw [hdir]
        rw [hsmall_mark t (by omega) (Or.inr rfl)]
        exact one_ne_zero
      · rw [hdir_keep p hp hpq] at hne ⊢
        exact hsmall_used _ (inv.dir_lt p hp) (inv.pt_used p hp hne)
    · intro p hp hne i hi hentne
      by_cases hpq : p = proc_num
      · subst hpq
        rw [hdir] at hne hentne ⊢
        by_cases hik : i < page_count
        · rw [hent' i hik] at hentne ⊢
          have hm2 : ds.getD i 0 ∈ ds := getD_mem ds i (by omega)
          obtain ⟨hlt, hd1, _, _⟩ := hdsprops _ hm2
          exact ⟨hlt, by rw [hsmall_mark _ hlt (Or.inl hm2)]; exact one_ne_zero⟩
        · exfalso
          have hnotds : 256 * t + i ∉ ds := by
            intro hmm
            have := (hdsprops _ hmm).1
            omega
          rw [hcell' (256 * t + i) (by omega) (by right; omega) hnotds (by omega)] at hentne
          exact hentne (inv.clean t (by omega) htfree i (by omega))
      · rw [hdir_keep p hp hpq] at hne hentne ⊢
        have htp := inv.dir_lt p hp
        have htpt : m.getD (PTP_OFFSET + p) 0 ≠ t := by
          intro h
          have h2 := inv.pt_used p hp hne
          rw [h] at h2
          exact h2 htfree
        have htp1 : 1 ≤ m.getD (PTP_OFFSET + p) 0 := by omega
        rw [hpage_keep _ i htp htpt htp1 (by omega)] at hentne ⊢
        obtain ⟨h1, h2⟩ := inv.ent_ok p hp hne i hi hentne
        exact ⟨h1, hsmall_used _ h1 h2⟩
    · intro j hj hfree o ho
      have hjprops : j ∉ ds ∧ j ≠ t ∧ m.getD j 0 = 0 := by
        by_cases hmem : j ∈ ds ∨ j = t
        · rw [hsmall_mark j hj hmem] at hfree
          cases hfree
        · push_neg at hmem
          refine ⟨hmem.1, hmem.2, ?_⟩
          rw [hsmall_keep j hj hmem.1 hmem.2] at hfree
          exact hfree
      have hj1 : 1 ≤ j := by
        rcases Nat.eq_zero_or_pos j with h | h
        · rw [h] at hjprops
          exact absurd hjprops.2.2 inv.zero_used
        · exact h
      rw [hpage_keep j o hj hjprops.2.1 hj1 ho]
      exact inv.clean j hj hjprops.2.2 o ho

theorem reach_inv (m : Mem) (h : ReachableNP m) : MemInv m := by
  induction h with
  | init => exact memInv_init
  | step m proc_num page_count hp _ ih => exact memInv_step m ih proc_num page_count hp

/-- C3 (amended): in every state reachable from the fresh store by
`new_process` operations alone, every nonzero entry of a live process's page
table names a page whose free-map byte is nonzero. -/
theorem c3_consistency_creates_only (m : Mem) (hm : ReachableNP m)
    (p : Nat) (hp : p < PAGE_COUNT) (hlive : get_page_table m p ≠ 0)
    (i : Nat) (hi : i < PAGE_COUNT)
    (he : m.getD (get_address (get_page_table m p) i) 0 ≠ 0) :
    m.getD (get_address 0 (m.getD (get_address (get_page_table m p) i) 0)) 0 ≠ 0 := by
  have inv := reach_inv m hm
  have hPS : PAGE_SIZE = 256 := rfl
  have hPC : PAGE_COUNT = 64 := rfl
  simp only [get_page_table, ga_zero] at hlive he ⊢
  have hga : get_address (m.getD (PTP_OFFSET + p) 0) i =
      256 * m.getD (PTP_OFFSET + p) 0 + i := by
    have h1 := ga_eq (m.getD (PTP_OFFSET + p) 0) i (by omega)
    rw [hPS] at h1
    exact h1
  rw [hga] at he ⊢
  exact (inv.ent_ok p hp hlive i hi he).2

/-- C3 witness: after one `create_process(0, 1)` from the fresh store, process
0 is live, entry 0 of its page table is the nonzero page 2, and the free-map
byte of page 2 is nonzero. -/
theorem c3_consistency_creates_only_witness :
    get_page_table (new_process init_mem 0 1).2 0 ≠ 0 ∧
    (new_process init_mem 0 1).2.getD
      (get_address (get_page_table (new_process init_mem 0 1).2 0) 0) 0 ≠ 0 ∧
    (new_process init_mem 0 1).2.getD (get_address 0
      ((new_process init_mem 0 1).2.getD
        (get_address (get_page_table (new_process init_mem 0 1).2 0) 0) 0)) 0 ≠ 0 :=
  ⟨by decide, by decide,
   c3_consistency_creates_only (new_process init_mem 0 1).2
     (ReachableNP.step init_mem 0 1 (by decide) ReachableNP.init)
     0 (by decide) (by decide) 0 (by decide) (by decide)⟩

end PTSim
